import Mathlib

/-!
A shallow embedding of the copy-on-write trie and its versioned store from
`src/trie/src.hpp` (namespace `sjtu`).

Heap pointers are modelled by tagging every allocated node with an address
(`addr`) drawn from an allocation counter that is threaded through every
operation; `shared_ptr` identity is address identity.  The child map
`std::map<char, std::shared_ptr<const TrieNode>>` is modelled as a key-ordered
association list: `std::map::find` is `findChild`, the assignment
`children[c] = x` is `setChild` (replace when present, sorted insert when
absent), and `children.erase(it)` with `it = children.find(c)` is `eraseChild`.
The template parameter `T` of `TrieNodeWithValue<T>` is modelled as a runtime
type tag (`Val.ty`); `std::dynamic_pointer_cast<TrieNodeWithValue<T>>`
succeeds exactly when the tag matches.
-/

/-- A stored value together with its runtime type: `ty` models the template
argument `T` of `TrieNodeWithValue<T>`, `data` models the payload of the
`std::shared_ptr<T> value_`. -/
structure Val where
  ty : Nat
  data : Nat
deriving DecidableEq

/-- A trie node (`TrieNode` / `TrieNodeWithValue<T>` in the source).
`value_ = none` models a plain `TrieNode` (`is_value_node_ == false`);
`value_ = some v` models a `TrieNodeWithValue<T>` with runtime type `v.ty`
(`is_value_node_ == true`).  `addr` is the allocation address used to model
`shared_ptr` identity. -/
inductive TrieNode : Type where
  | node (addr : Nat) (children_ : List (Char × TrieNode)) (value_ : Option Val)

/-- The allocation address of a node (models the object's heap address). -/
def TrieNode.addr : TrieNode → Nat
  | .node a _ _ => a

/-- The `children_` field of a node. -/
def TrieNode.children_ : TrieNode → List (Char × TrieNode)
  | .node _ ch _ => ch

/-- The value stored at a node: `none` for a plain `TrieNode`, `some v` for a
`TrieNodeWithValue`. -/
def TrieNode.value_ : TrieNode → Option Val
  | .node _ _ v => v

/-- The `is_value_node_` flag of the source: set exactly on
`TrieNodeWithValue`. -/
def TrieNode.is_value_node_ (n : TrieNode) : Bool :=
  n.value_.isSome

/-- `children.find(c)`: the first binding of `c` in the child list (in a
`std::map` keys are unique, so first = only). -/
def findChild : List (Char × TrieNode) → Char → Option TrieNode
  | [], _ => none
  | (d, y) :: rest, c => if c = d then some y else findChild rest c

/-- `children[c] = x` on a `std::map`: replace the binding of `c` when present,
otherwise insert `(c, x)` at its sorted position. -/
def setChild : List (Char × TrieNode) → Char → TrieNode → List (Char × TrieNode)
  | [], c, x => [(c, x)]
  | (d, y) :: rest, c, x =>
    if c = d then (c, x) :: rest
    else if c < d then (c, x) :: (d, y) :: rest
    else (d, y) :: setChild rest c x

/-- `children.erase(it)` where `it = children.find(c)`: drop the first binding
of `c`. -/
def eraseChild : List (Char × TrieNode) → Char → List (Char × TrieNode)
  | [], _ => []
  | (d, y) :: rest, c => if c = d then rest else (d, y) :: eraseChild rest c

/-- `TrieNode::Clone` / `TrieNodeWithValue<T>::Clone`: allocate a fresh node at
address `ctr` with the same (shared) children and the same value; returns the
clone and the advanced allocation counter. -/
def clone (n : TrieNode) (ctr : Nat) : TrieNode × Nat :=
  (.node ctr n.children_ n.value_, ctr + 1)

/-- Outcome of `Trie::Get<T>`.  `absent` models a returned `nullptr`
(missing key or non-value terminal node); `found d` models a valid pointer to
the stored payload `d`; `crash` models the undefined behaviour on a failed
`dynamic_pointer_cast`: the source dereferences the null cast result
(`value_node->value_`) instead of returning `nullptr`. -/
inductive GetResult : Type where
  | absent
  | found (data : Nat)
  | crash
deriving DecidableEq

/-- The walk of `Trie::Get<T>` from a node: follow one child edge per key
character; at the end of the key inspect `is_value_node_` and perform the
checked downcast. -/
def getNode : TrieNode → Nat → List Char → GetResult
  | n, ty, [] =>
    match n.value_ with
    | none => .absent
    | some v => if v.ty = ty then .found v.data else .crash
  | n, ty, c :: rest =>
    match findChild n.children_ c with
    | none => .absent
    | some ch => getNode ch ty rest

/-- The `Trie` class: an optional shared root (`root_ == nullptr` iff
`root_ = none`). -/
structure Trie where
  root_ : Option TrieNode

/-- `Trie::Get<T>(key)` with expected runtime type `ty`. -/
def Trie.Get (t : Trie) (ty : Nat) (key : List Char) : GetResult :=
  match t.root_ with
  | none => .absent
  | some r => getNode r ty key

/-- The body of the loop of `Trie::Put` acting on the already-cloned current
node `n`: for each remaining key character, reuse or create the child slot,
cloning an existing next-level node before descending into it, and making the
terminal node a `TrieNodeWithValue` that keeps the old node's children. -/
def putLoop : TrieNode → List Char → Val → Nat → TrieNode × Nat
  | n, [], _, ctr => (n, ctr)
  | n, c :: rest, v, ctr =>
    match findChild n.children_ c with
    | none =>
      match rest with
      | [] =>
        (.node n.addr (setChild n.children_ c (.node ctr [] (some v))) n.value_, ctr + 1)
      | _ :: _ =>
        let r := putLoop (.node ctr [] none) rest v (ctr + 1)
        (.node n.addr (setChild n.children_ c r.1) n.value_, r.2)
    | some old =>
      match rest with
      | [] =>
        (.node n.addr (setChild n.children_ c (.node ctr old.children_ (some v))) n.value_, ctr + 1)
      | _ :: _ =>
        let cl := clone old ctr
        let r := putLoop cl.1 rest v cl.2
        (.node n.addr (setChild n.children_ c r.1) n.value_, r.2)

/-- `Trie::Put<T>(key, value)`: clone the root (or allocate a fresh empty node
when the trie is empty), then run the insertion loop. -/
def Trie.Put (t : Trie) (key : List Char) (v : Val) (ctr : Nat) : Trie × Nat :=
  let nr := match t.root_ with
    | some r => clone r ctr
    | none => (TrieNode.node ctr [] none, ctr + 1)
  let r := putLoop nr.1 key v nr.2
  (⟨some r.1⟩, r.2)

/-- The recursive `Trie::Remove(node, pos, key)`.  `isRoot` models `pos == 0`.
The node argument is already cloned by the caller.  Returns `none` exactly
where the source returns `nullptr` (a dead branch to be dropped by the
parent). -/
def removeRec : TrieNode → Bool → List Char → Nat → Option TrieNode × Nat
  | n, isRoot, [], ctr =>
    match n.value_ with
    | none => (some n, ctr)
    | some _ =>
      if !isRoot && n.children_.isEmpty then (none, ctr)
      else (some (.node ctr n.children_ none), ctr + 1)
  | n, isRoot, c :: rest, ctr =>
    match findChild n.children_ c with
    | none => (some n, ctr)
    | some child =>
      let cl := clone child ctr
      let r := removeRec cl.1 false rest cl.2
      let newChildren := match r.1 with
        | none => eraseChild n.children_ c
        | some nc => setChild n.children_ c nc
      if !isRoot && newChildren.isEmpty && n.value_.isNone then (none, r.2)
      else (some (.node n.addr newChildren n.value_), r.2)

/-- `Trie::Remove(key)`: clone the root (or allocate a fresh empty node when
the trie is empty) and run the recursive removal from position 0. -/
def Trie.Remove (t : Trie) (key : List Char) (ctr : Nat) : Trie × Nat :=
  let nr := match t.root_ with
    | some r => clone r ctr
    | none => (TrieNode.node ctr [] none, ctr + 1)
  let r := removeRec nr.1 true key nr.2
  (⟨r.1⟩, r.2)

/-- `Trie::operator==`: `shared_ptr` identity of the roots, i.e. both null or
the same allocation address. -/
def Trie.eq (a b : Trie) : Bool :=
  match a.root_, b.root_ with
  | none, none => true
  | some x, some y => x.addr = y.addr
  | _, _ => false

/-- The subtree reached from a node by following the child edges spelled by
`p` (the model of "the node at path `p`"). -/
def lookupPath : TrieNode → List Char → Option TrieNode
  | n, [] => some n
  | n, c :: rest =>
    match findChild n.children_ c with
    | none => none
    | some ch => lookupPath ch rest

/-- The subtree of a trie at path `p` (none when unreachable or the trie is
empty). -/
def Trie.subtrie (t : Trie) (p : List Char) : Option TrieNode :=
  match t.root_ with
  | none => none
  | some r => lookupPath r p

/-- `listPre p k` decides whether `p` is an initial segment of `k` (the nodes
on the path of a key `k` are exactly the nodes at its initial segments). -/
def listPre : List Char → List Char → Bool
  | [], _ => true
  | _ :: _, [] => false
  | c :: p, d :: k => c = d && listPre p k

/-- A reachable node that carries no value and has no children: the shape the
spec's pruning property forbids along a removed key's path. -/
def deadAt (o : Option TrieNode) : Bool :=
  match o with
  | none => false
  | some n => n.children_.isEmpty && n.value_.isNone

/-- Every key in the list is strictly greater than `c`. -/
def allGt (c : Char) : List (Char × TrieNode) → Bool
  | [] => true
  | (d, _) :: rest => c < d && allGt c rest

/-- The `std::map` key invariant: the bindings are strictly sorted by key. -/
def keysSorted : List (Char × TrieNode) → Bool
  | [] => true
  | (c, _) :: rest => allGt c rest && keysSorted rest

/-- The root's child list satisfies the `std::map` sortedness invariant (true
of every trie the C++ program can build). -/
def rootSorted (t : Trie) : Bool :=
  match t.root_ with
  | none => true
  | some r => keysSorted r.children_

/-- The sentinel default of `TrieStore::Get`'s `size_t version = -1`
parameter: `(size_t)-1 = 2^64 - 1`. -/
def SIZE_MAX : Nat := 2 ^ 64 - 1

/-- The `TrieStore` class: the append-only snapshot vector plus the allocation
counter of the modelled heap. -/
structure TrieStore where
  snapshots_ : List Trie
  ctr : Nat

/-- A freshly constructed `TrieStore`: `snapshots_ { 1 }`, one
default-constructed (empty) trie at version 0. -/
def TrieStore.init : TrieStore :=
  ⟨[⟨none⟩], 0⟩

/-- `TrieStore::get_version()`: `snapshots_.size() - 1`. -/
def TrieStore.get_version (s : TrieStore) : Nat :=
  s.snapshots_.length - 1

/-- `TrieStore::Get<T>(key, version)`: `version == -1` selects the latest
version; an out-of-range version yields `absent`; otherwise delegate to the
selected snapshot's `Trie::Get`. -/
def TrieStore.Get (s : TrieStore) (ty : Nat) (key : List Char) (version : Nat) : GetResult :=
  let v := if version = SIZE_MAX then s.get_version else version
  if s.snapshots_.length ≤ v then .absent
  else (s.snapshots_.getD v ⟨none⟩).Get ty key

/-- `TrieStore::Put<T>(key, value)`: build the new trie from the latest
snapshot, append it, and return the new latest version number. -/
def TrieStore.Put (s : TrieStore) (key : List Char) (v : Val) : TrieStore × Nat :=
  let r := (s.snapshots_.getLastD ⟨none⟩).Put key v s.ctr
  let s' : TrieStore := ⟨s.snapshots_ ++ [r.1], r.2⟩
  (s', s'.get_version)

/-- `TrieStore::Remove(key)`: build the candidate trie from the latest
snapshot; when it compares equal (root identity) to the latest snapshot,
append nothing, otherwise append it; return `get_version()`. -/
def TrieStore.Remove (s : TrieStore) (key : List Char) : TrieStore × Nat :=
  let back := s.snapshots_.getLastD ⟨none⟩
  let r := back.Remove key s.ctr
  if Trie.eq r.1 back then (s, s.get_version)
  else
    let s' : TrieStore := ⟨s.snapshots_ ++ [r.1], r.2⟩
    (s', s'.get_version)

theorem findChild_setChild_self (ch : List (Char × TrieNode)) (c : Char) (x : TrieNode) :
    findChild (setChild ch c x) c = some x := by
  induction ch with
  | nil => simp [setChild, findChild]
  | cons hd rest ih =>
    obtain ⟨d, y⟩ := hd
    by_cases hcd : c = d
    · simp [setChild, hcd, findChild]
    · by_cases hlt : c < d
      · simp [setChild, hcd, hlt, findChild]
      · simp [setChild, hcd, hlt, findChild, ih]

theorem findChild_setChild_ne (ch : List (Char × TrieNode)) (c : Char) (x : TrieNode)
    (e : Char) (h : e ≠ c) :
    findChild (setChild ch c x) e = findChild ch e := by
  induction ch with
  | nil => simp [setChild, findChild, h]
  | cons hd rest ih =>
    obtain ⟨d, y⟩ := hd
    by_cases hcd : c = d
    · subst hcd
      simp [setChild, findChild, h]
    · by_cases hlt : c < d
      · simp [setChild, hcd, hlt, findChild, h]
      · simp [setChild, hcd, hlt, findChild, ih]

theorem setChild_isEmpty (ch : List (Char × TrieNode)) (c : Char) (x : TrieNode) :
    (setChild ch c x).isEmpty = false := by
  cases ch with
  | nil => simp [setChild]
  | cons hd rest =>
    obtain ⟨d, y⟩ := hd
    by_cases hcd : c = d
    · simp [setChild, hcd]
    · by_cases hlt : c < d <;> simp [setChild, hcd, hlt]

theorem findChild_none_of_allGt (ch : List (Char × TrieNode)) (c : Char)
    (h : allGt c ch = true) : findChild ch c = none := by
  induction ch with
  | nil => rfl
  | cons hd rest ih =>
    obtain ⟨d, y⟩ := hd
    simp [allGt] at h
    have hne : ¬ c = d := fun he => absurd (he ▸ h.1) (lt_irrefl _)
    simp [findChild, hne, ih h.2]

theorem allGt_of_lt (c d : Char) (ch : List (Char × TrieNode)) (hcd : c < d)
    (h : allGt d ch = true) : allGt c ch = true := by
  induction ch with
  | nil => rfl
  | cons hd rest ih =>
    obtain ⟨e, y⟩ := hd
    simp [allGt] at h ⊢
    exact ⟨lt_trans hcd h.1, ih h.2⟩

theorem findChild_eraseChild_setChild_sorted (ch : List (Char × TrieNode)) (c : Char)
    (x : TrieNode) (h : keysSorted ch = true) :
    findChild (eraseChild (setChild ch c x) c) c = none := by
  induction ch with
  | nil => simp [setChild, eraseChild, findChild]
  | cons hd rest ih =>
    obtain ⟨d, y⟩ := hd
    simp [keysSorted] at h
    obtain ⟨hall, hsorted⟩ := h
    by_cases hcd : c = d
    · subst hcd
      simp [setChild, eraseChild]
      exact findChild_none_of_allGt rest c hall
    · by_cases hlt : c < d
      · simp [setChild, hcd, hlt, eraseChild, findChild]
        exact findChild_none_of_allGt rest c (allGt_of_lt c d rest hlt hall)
      · simp [setChild, hcd, hlt, eraseChild, findChild, ih hsorted]

theorem getNode_clone (n : TrieNode) (ctr ty : Nat) (p : List Char) :
    getNode (clone n ctr).1 ty p = getNode n ty p := by
  cases p with
  | nil => simp only [clone, getNode, TrieNode.value_]
  | cons c rest => simp only [clone, getNode, TrieNode.children_]

theorem lookupPath_clone (n : TrieNode) (ctr : Nat) (c : Char) (rest : List Char) :
    lookupPath (clone n ctr).1 (c :: rest) = lookupPath n (c :: rest) := by
  simp only [clone, lookupPath, TrieNode.children_]

theorem putLoop_addr (key : List Char) (n : TrieNode) (v : Val) (ctr : Nat) :
    (putLoop n key v ctr).1.addr = n.addr := by
  cases key with
  | nil => rfl
  | cons c rest =>
    simp only [putLoop]
    cases findChild n.children_ c with
    | none => cases rest <;> simp [TrieNode.addr]
    | some old => cases rest <;> simp [TrieNode.addr]

theorem removeRec_root_isSome (n : TrieNode) (key : List Char) (ctr : Nat) :
    (removeRec n true key ctr).1.isSome = true := by
  cases key with
  | nil =>
    simp only [removeRec]
    cases n.value_ <;> simp
  | cons c rest =>
    simp only [removeRec]
    cases findChild n.children_ c <;> simp

/-- C1: the claim is refuted by the code.  `Trie::Remove` clones the root
before recursing, so removing an absent key returns a trie whose root is a
fresh allocation, never identical to the original root; consequently
`TrieStore::Remove` of an absent key appends a snapshot and returns an
increased version number, contradicting the claim (and the source's own
comment "if the key does not exist, version number should not be
increased").  Shown here at a fresh store and at trie level, both on the
empty trie and on a non-empty trie lacking the removed key. -/
theorem store_remove_absent_key_consumes_version :
    (TrieStore.init.Remove ['a']).2 = 1
      ∧ (TrieStore.init.Remove ['a']).1.snapshots_.length = 2
      ∧ Trie.eq ((Trie.mk none).Remove ['a'] 0).1 (Trie.mk none) = false
      ∧ (let t := ((Trie.mk none).Put ['b'] ⟨0, 1⟩ 0).1
         Trie.eq (t.Remove ['a'] 3).1 t = false) := by
  decide

/-- C2: the claim is refuted by the code.  When the key is present but was
stored with a different runtime type, `Trie::Get<U>`'s
`dynamic_pointer_cast<TrieNodeWithValue<U>>` yields a null pointer and the
source immediately dereferences it (`value_node->value_`): undefined
behaviour (modelled as `GetResult.crash`), not the `nullptr` return the
claim (and the function's own comment) promises.  Shown at the failing
input `Put(key "a", value of type 0)` then `Get<type 1>("a")`. -/
theorem get_type_mismatch_null_deref :
    ((Trie.mk none).Put ['a'] ⟨0, 7⟩ 0).1.Get 1 ['a'] = .crash
      ∧ ((Trie.mk none).Put ['a'] ⟨0, 7⟩ 0).1.Get 0 ['a'] = .found 7 := by
  decide

/-- C3: the claim is refuted by the code at the empty key.  `Trie::Put`'s
loop body never runs for an empty key, so the value is silently dropped
(the returned trie is just a clone of the root) and the subsequent
`Get<T>("")` is absent rather than the stored value; shown both on the
empty trie and on a non-empty trie.  For nonempty keys the round-trip
holds. -/
theorem put_empty_key_value_lost :
    ((Trie.mk none).Put [] ⟨0, 5⟩ 0).1.Get 0 [] = .absent
      ∧ (let t := ((Trie.mk none).Put ['a'] ⟨0, 1⟩ 0).1
         (t.Put [] ⟨0, 5⟩ 3).1.Get 0 [] = .absent) := by
  decide

/-- C4 (amended): a `TrieStore::Get` with an explicit version at or beyond
the snapshot-sequence length returns absent — except the sentinel
`(size_t)-1 = 2^64 - 1`, which the code remaps to the latest version (see
the counterexample theorem). -/
theorem store_get_out_of_range_absent (s : TrieStore) (ty : Nat) (key : List Char)
    (version : Nat) (h1 : s.snapshots_.length ≤ version) (h2 : version ≠ SIZE_MAX) :
    s.Get ty key version = .absent := by
  simp [TrieStore.Get, h1, h2]

/-- Witness for the amended C4 theorem at a concrete store and version. -/
theorem store_get_out_of_range_absent_witness :
    TrieStore.init.snapshots_.length ≤ 5 ∧ (5 : Nat) ≠ SIZE_MAX
      ∧ TrieStore.init.Get 0 ['x'] 5 = .absent :=
  ⟨by decide, by decide,
    store_get_out_of_range_absent TrieStore.init 0 ['x'] 5 (by decide) (by decide)⟩

/-- C4 counterexample: passing the explicit version `2^64 - 1` (`SIZE_MAX`),
which is at least the sequence length, does not yield absent: the code
treats it as the default sentinel, remaps it to the latest version and
returns that snapshot's value. -/
theorem store_get_size_max_returns_value :
    (let s1 := (TrieStore.init.Put ['x'] ⟨0, 1⟩).1
     s1.snapshots_.length ≤ SIZE_MAX ∧ s1.Get 0 ['x'] SIZE_MAX = .found 1) := by
  constructor
  · decide
  · decide

/-- C6: the versioning scenario.  From a fresh store, `Put("x",1)` yields
version 1 with `Get("x",0)` absent and `Get("x",1) = 1`; a further
`Put("x",2)` yields version 2 while version 1 still answers 1 and version 2
answers 2 — earlier snapshots are unaffected by later writes. -/
theorem store_versioning_chain :
    (let r1 := TrieStore.init.Put ['x'] ⟨0, 1⟩
     let r2 := r1.1.Put ['x'] ⟨0, 2⟩
     r1.2 = 1
       ∧ r1.1.Get 0 ['x'] 0 = .absent
       ∧ r1.1.Get 0 ['x'] 1 = .found 1
       ∧ r2.2 = 2
       ∧ r2.1.Get 0 ['x'] 1 = .found 1
       ∧ r2.1.Get 0 ['x'] 2 = .found 2) := by
  decide

/-- C10: `Trie::Remove` always returns a trie with a non-null root: the
recursive removal never signals "dead" at the root position (`pos == 0`),
so even when the whole tree empties the result's root is a childless,
value-free node, and the result is never equal — under the root-identity
`operator==` — to a default-constructed empty trie. -/
theorem remove_never_empty_trie (t : Trie) (key : List Char) (ctr : Nat) :
    (t.Remove key ctr).1.root_.isSome = true
      ∧ Trie.eq (t.Remove key ctr).1 (Trie.mk none) = false := by
  have h1 : (t.Remove key ctr).1.root_.isSome = true :=
    removeRec_root_isSome _ key _
  refine ⟨h1, ?_⟩
  cases hr : (t.Remove key ctr).1.root_ with
  | none => rw [hr] at h1; simp at h1
  | some m => simp [Trie.eq, hr]

theorem putLoop_single (n : TrieNode) (c : Char) (v : Val) (ctr : Nat) :
    putLoop n [c] v ctr =
      match findChild n.children_ c with
      | none =>
        (.node n.addr (setChild n.children_ c (.node ctr [] (some v))) n.value_, ctr + 1)
      | some old =>
        (.node n.addr (setChild n.children_ c (.node ctr old.children_ (some v))) n.value_,
          ctr + 1) := by
  cases hfc : findChild n.children_ c with
  | none => simp only [putLoop, hfc]
  | some old => simp only [putLoop, hfc]

theorem putLoop_cons_cons (n : TrieNode) (c r1 : Char) (r2 : List Char) (v : Val) (ctr : Nat) :
    putLoop n (c :: r1 :: r2) v ctr =
      match findChild n.children_ c with
      | none =>
        (.node n.addr
            (setChild n.children_ c (putLoop (.node ctr [] none) (r1 :: r2) v (ctr + 1)).1)
            n.value_,
          (putLoop (.node ctr [] none) (r1 :: r2) v (ctr + 1)).2)
      | some old =>
        (.node n.addr
            (setChild n.children_ c
              (putLoop (clone old ctr).1 (r1 :: r2) v (clone old ctr).2).1)
            n.value_,
          (putLoop (clone old ctr).1 (r1 :: r2) v (clone old ctr).2).2) := by
  cases hfc : findChild n.children_ c with
  | none => simp only [putLoop, hfc]
  | some old => simp only [putLoop, hfc]

theorem getNode_addr_irrel (a b : Nat) (ch : List (Char × TrieNode)) (v : Option Val)
    (ty : Nat) (p : List Char) :
    getNode (.node a ch v) ty p = getNode (.node b ch v) ty p := by
  cases p <;> simp only [getNode, TrieNode.value_, TrieNode.children_]

theorem getNode_putLoop_ne (k : List Char) :
    ∀ (n : TrieNode) (v : Val) (ctr ty : Nat) (p : List Char), p ≠ k →
      getNode (putLoop n k v ctr).1 ty p = getNode n ty p := by
  induction k with
  | nil =>
    intro n v ctr ty p _
    rfl
  | cons c rest ih =>
    intro n v ctr ty p hp
    obtain ⟨na, nch, nv⟩ := n
    cases hfc : findChild nch c with
    | none =>
      cases rest with
      | nil =>
        cases p with
        | nil =>
          simp only [putLoop_single, TrieNode.children_, TrieNode.addr, TrieNode.value_,
            hfc, getNode]
        | cons d p' =>
          by_cases hdc : d = c
          · subst hdc
            have hp' : p' ≠ [] := fun he => hp (by rw [he])
            cases p' with
            | nil => exact absurd rfl hp'
            | cons e q =>
              simp only [putLoop_single, TrieNode.children_, TrieNode.addr, TrieNode.value_,
                hfc, getNode, findChild_setChild_self, findChild]
          · simp only [putLoop_single, TrieNode.children_, TrieNode.addr, TrieNode.value_,
              hfc, getNode]
            rw [findChild_setChild_ne _ _ _ _ hdc]
      | cons r1 r2 =>
        cases p with
        | nil =>
          simp only [putLoop_cons_cons, TrieNode.children_, TrieNode.addr, TrieNode.value_,
            hfc, getNode]
        | cons d p' =>
          by_cases hdc : d = c
          · subst hdc
            have hp' : p' ≠ r1 :: r2 := fun he => hp (by rw [he])
            simp only [putLoop_cons_cons, TrieNode.children_, TrieNode.addr, TrieNode.value_,
              hfc, getNode, findChild_setChild_self]
            rw [ih _ v _ ty p' hp']
            cases p' with
            | nil => simp only [getNode, TrieNode.value_]
            | cons e q => simp only [getNode, TrieNode.children_, findChild]
          · simp only [putLoop_cons_cons, TrieNode.children_, TrieNode.addr, TrieNode.value_,
              hfc, getNode]
            rw [findChild_setChild_ne _ _ _ _ hdc]
    | some o =>
      obtain ⟨oa, och, ov⟩ := o
      cases rest with
      | nil =>
        cases p with
        | nil =>
          simp only [putLoop_single, TrieNode.children_, TrieNode.addr, TrieNode.value_,
            hfc, getNode]
        | cons d p' =>
          by_cases hdc : d = c
          · subst hdc
            have hp' : p' ≠ [] := fun he => hp (by rw [he])
            cases p' with
            | nil => exact absurd rfl hp'
            | cons e q =>
              simp only [putLoop_single, TrieNode.children_, TrieNode.addr, TrieNode.value_,
                hfc, getNode, findChild_setChild_self]
          · simp only [putLoop_single, TrieNode.children_, TrieNode.addr, TrieNode.value_,
              hfc, getNode]
            rw [findChild_setChild_ne _ _ _ _ hdc]
      | cons r1 r2 =>
        cases p with
        | nil =>
          simp only [putLoop_cons_cons, TrieNode.children_, TrieNode.addr, TrieNode.value_,
            hfc, getNode]
        | cons d p' =>
          by_cases hdc : d = c
          · subst hdc
            have hp' : p' ≠ r1 :: r2 := fun he => hp (by rw [he])
            simp only [putLoop_cons_cons, TrieNode.children_, TrieNode.addr, TrieNode.value_,
              hfc, getNode, findChild_setChild_self]
            rw [ih _ v _ ty p' hp']
            exact getNode_addr_irrel _ _ _ _ _ _
          · simp only [putLoop_cons_cons, TrieNode.children_, TrieNode.addr, TrieNode.value_,
              hfc, getNode]
            rw [findChild_setChild_ne _ _ _ _ hdc]

/-- C5: `Trie::Put(k, v)` preserves every other key: for any key `p ≠ k`,
`Get` after the `Put` answers exactly as it did before — in particular a
key that extends `k`, or that `k` extends, keeps its value, because the new
terminal node keeps the old node's children and every cloned path node
keeps its value and its other children. -/
theorem put_preserves_other_keys (t : Trie) (k p : List Char) (v : Val)
    (ty ctr : Nat) (h : p ≠ k) :
    (t.Put k v ctr).1.Get ty p = t.Get ty p := by
  cases t with
  | mk root? =>
    cases root? with
    | none =>
      simp only [Trie.Put, Trie.Get]
      rw [getNode_putLoop_ne k _ v _ ty p h]
      cases p with
      | nil => simp only [getNode, TrieNode.value_]
      | cons d p' => simp only [getNode, TrieNode.children_, findChild]
    | some r =>
      simp only [Trie.Put, Trie.Get]
      rw [getNode_putLoop_ne k _ v _ ty p h, getNode_clone]

/-- Witness for C5: the spec's prefix-independence scenario.  After
`Put("ab", 1)` then `Put("a", 2)`, key `"ab"` still answers 1 (by the
preservation theorem, since `"ab" ≠ "a"`) and key `"a"` answers 2. -/
theorem put_preserves_other_keys_witness :
    ((((Trie.mk none).Put ['a', 'b'] ⟨0, 1⟩ 0).1.Put ['a'] ⟨0, 2⟩ 0).1.Get 0 ['a', 'b']
        = .found 1)
      ∧ ((((Trie.mk none).Put ['a', 'b'] ⟨0, 1⟩ 0).1.Put ['a'] ⟨0, 2⟩ 0).1.Get 0 ['a']
        = .found 2) := by
  constructor
  · rw [put_preserves_other_keys _ _ _ _ _ _ (by decide)]
    decide
  · decide

theorem lookupPath_putLoop_off (k : List Char) :
    ∀ (n : TrieNode) (v : Val) (ctr : Nat) (p : List Char), listPre p k = false →
      lookupPath (putLoop n k v ctr).1 p = lookupPath n p := by
  induction k with
  | nil =>
    intro n v ctr p _
    rfl
  | cons c rest ih =>
    intro n v ctr p hp
    obtain ⟨na, nch, nv⟩ := n
    cases p with
    | nil => simp [listPre] at hp
    | cons d p' =>
      by_cases hdc : d = c
      · subst hdc
        have hp' : listPre p' rest = false := by simpa [listPre] using hp
        have hne : p' ≠ [] := by
          intro he
          subst he
          simp [listPre] at hp'
        cases hfc : findChild nch d with
        | none =>
          cases rest with
          | nil =>
            cases p' with
            | nil => exact absurd rfl hne
            | cons e q =>
              simp only [putLoop_single, TrieNode.children_, TrieNode.addr, TrieNode.value_,
                hfc, lookupPath, findChild_setChild_self, findChild]
          | cons r1 r2 =>
            simp only [putLoop_cons_cons, TrieNode.children_, TrieNode.addr, TrieNode.value_,
              hfc, lookupPath, findChild_setChild_self]
            rw [ih _ v _ p' hp']
            cases p' with
            | nil => exact absurd rfl hne
            | cons e q => simp only [lookupPath, TrieNode.children_, findChild]
        | some o =>
          cases rest with
          | nil =>
            cases p' with
            | nil => exact absurd rfl hne
            | cons e q =>
              simp only [putLoop_single, TrieNode.children_, TrieNode.addr, TrieNode.value_,
                hfc, lookupPath, findChild_setChild_self]
          | cons r1 r2 =>
            simp only [putLoop_cons_cons, TrieNode.children_, TrieNode.addr, TrieNode.value_,
              hfc, lookupPath, findChild_setChild_self]
            rw [ih _ v _ p' hp']
            cases p' with
            | nil => exact absurd rfl hne
            | cons e q => simp only [clone, lookupPath, TrieNode.children_]
      · cases hfc : findChild nch c with
        | none =>
          cases rest with
          | nil =>
            simp only [putLoop_single, TrieNode.children_, TrieNode.addr, TrieNode.value_,
              hfc, lookupPath]
            rw [findChild_setChild_ne _ _ _ _ hdc]
          | cons r1 r2 =>
            simp only [putLoop_cons_cons, TrieNode.children_, TrieNode.addr, TrieNode.value_,
              hfc, lookupPath]
            rw [findChild_setChild_ne _ _ _ _ hdc]
        | some o =>
          cases rest with
          | nil =>
            simp only [putLoop_single, TrieNode.children_, TrieNode.addr, TrieNode.value_,
              hfc, lookupPath]
            rw [findChild_setChild_ne _ _ _ _ hdc]
          | cons r1 r2 =>
            simp only [putLoop_cons_cons, TrieNode.children_, TrieNode.addr, TrieNode.value_,
              hfc, lookupPath]
            rw [findChild_setChild_ne _ _ _ _ hdc]

theorem lookupPath_putLoop_fresh (k : List Char) :
    ∀ (n : TrieNode) (v : Val) (ctr : Nat) (p : List Char), listPre p k = true → p ≠ [] →
      ∃ m, lookupPath (putLoop n k v ctr).1 p = some m ∧ ctr ≤ m.addr := by
  induction k with
  | nil =>
    intro n v ctr p hp hne
    cases p with
    | nil => exact absurd rfl hne
    | cons d p' => simp [listPre] at hp
  | cons c rest ih =>
    intro n v ctr p hp hne
    obtain ⟨na, nch, nv⟩ := n
    cases p with
    | nil => exact absurd rfl hne
    | cons d p' =>
      have hdc : d = c := by
        by_contra hdc
        simp [listPre, hdc] at hp
      subst hdc
      have hp' : listPre p' rest = true := by simpa [listPre] using hp
      cases hfc : findChild nch d with
      | none =>
        cases rest with
        | nil =>
          have hnil : p' = [] := by
            cases p' with
            | nil => rfl
            | cons e q => simp [listPre] at hp'
          subst hnil
          refine ⟨.node ctr [] (some v), ?_, ?_⟩
          · simp only [putLoop_single, TrieNode.children_, TrieNode.addr, TrieNode.value_,
              hfc, lookupPath, findChild_setChild_self]
          · simp [TrieNode.addr]
        | cons r1 r2 =>
          cases p' with
          | nil =>
            refine ⟨(putLoop (.node ctr [] none) (r1 :: r2) v (ctr + 1)).1, ?_, ?_⟩
            · simp only [putLoop_cons_cons, TrieNode.children_, TrieNode.addr, TrieNode.value_,
                hfc, lookupPath, findChild_setChild_self]
            · rw [putLoop_addr]
              simp [TrieNode.addr]
          | cons e q =>
            obtain ⟨m, hm, hle⟩ := ih (.node ctr [] none) v (ctr + 1) (e :: q) hp' (by simp)
            refine ⟨m, ?_, le_trans (Nat.le_succ ctr) hle⟩
            simp only [putLoop_cons_cons, TrieNode.children_, TrieNode.addr, TrieNode.value_,
              hfc, lookupPath, findChild_setChild_self]
            exact hm
      | some o =>
        cases rest with
        | nil =>
          have hnil : p' = [] := by
            cases p' with
            | nil => rfl
            | cons e q => simp [listPre] at hp'
          subst hnil
          refine ⟨.node ctr o.children_ (some v), ?_, ?_⟩
          · simp only [putLoop_single, TrieNode.children_, TrieNode.addr, TrieNode.value_,
              hfc, lookupPath, findChild_setChild_self]
          · simp [TrieNode.addr]
        | cons r1 r2 =>
          cases p' with
          | nil =>
            refine ⟨(putLoop (clone o ctr).1 (r1 :: r2) v (clone o ctr).2).1, ?_, ?_⟩
            · simp only [putLoop_cons_cons, TrieNode.children_, TrieNode.addr, TrieNode.value_,
                hfc, lookupPath, findChild_setChild_self]
            · rw [putLoop_addr]
              simp [clone, TrieNode.addr]
          | cons e q =>
            obtain ⟨m, hm, hle⟩ := ih (clone o ctr).1 v (clone o ctr).2 (e :: q) hp' (by simp)
            refine ⟨m, ?_, ?_⟩
            · simp only [putLoop_cons_cons, TrieNode.children_, TrieNode.addr, TrieNode.value_,
                hfc, lookupPath, findChild_setChild_self]
              exact hm
            · have h2 : (clone o ctr).2 = ctr + 1 := rfl
              rw [h2] at hle
              exact le_trans (Nat.le_succ ctr) hle

/-- C7: structural sharing of `Trie::Put(k, v)`.  Every subtree at a path that
is not an initial segment of `k` (i.e. not on the inserted key's path) is the
very same node object — same address, same subtree — as in the old trie,
while at every initial segment of `k` (the path from the new root to the
terminal node) the new trie holds a node freshly allocated by this `Put`
(its address is at least the allocation counter passed in). -/
theorem put_structural_sharing (t : Trie) (k : List Char) (v : Val) (ctr : Nat) :
    (∀ p, listPre p k = false → (t.Put k v ctr).1.subtrie p = t.subtrie p)
      ∧ (∀ p, listPre p k = true →
          ∃ m, (t.Put k v ctr).1.subtrie p = some m ∧ ctr ≤ m.addr) := by
  cases t with
  | mk root? =>
    cases root? with
    | none =>
      constructor
      · intro p hp
        have hne : p ≠ [] := by
          intro he
          subst he
          simp [listPre] at hp
        simp only [Trie.Put, Trie.subtrie]
        rw [lookupPath_putLoop_off k _ v _ p hp]
        cases p with
        | nil => exact absurd rfl hne
        | cons e q => simp only [lookupPath, TrieNode.children_, findChild]
      · intro p hp
        cases p with
        | nil =>
          refine ⟨(putLoop (.node ctr [] none) k v (ctr + 1)).1, ?_, ?_⟩
          · simp only [Trie.Put, Trie.subtrie, lookupPath]
          · rw [putLoop_addr]
            simp [TrieNode.addr]
        | cons e q =>
          obtain ⟨m, hm, hle⟩ :=
            lookupPath_putLoop_fresh k (.node ctr [] none) v (ctr + 1) (e :: q) hp (by simp)
          refine ⟨m, ?_, le_trans (Nat.le_succ ctr) hle⟩
          simp only [Trie.Put, Trie.subtrie]
          exact hm
    | some r =>
      constructor
      · intro p hp
        have hne : p ≠ [] := by
          intro he
          subst he
          simp [listPre] at hp
        simp only [Trie.Put, Trie.subtrie]
        rw [lookupPath_putLoop_off k _ v _ p hp]
        cases p with
        | nil => exact absurd rfl hne
        | cons e q => exact lookupPath_clone r ctr e q
      · intro p hp
        cases p with
        | nil =>
          refine ⟨(putLoop (clone r ctr).1 k v (clone r ctr).2).1, ?_, ?_⟩
          · simp only [Trie.Put, Trie.subtrie, lookupPath]
          · rw [putLoop_addr]
            simp [clone, TrieNode.addr]
        | cons e q =>
          obtain ⟨m, hm, hle⟩ :=
            lookupPath_putLoop_fresh k (clone r ctr).1 v (clone r ctr).2 (e :: q) hp (by simp)
          refine ⟨m, ?_, ?_⟩
          · simp only [Trie.Put, Trie.subtrie]
            exact hm
          · have h2 : (clone r ctr).2 = ctr + 1 := rfl
            rw [h2] at hle
            exact le_trans (Nat.le_succ ctr) hle

/-- Witness for C7 at a concrete trie holding key "b", inserting key "a" with
allocation counter 5: the subtree at the off-path "b" is shared unchanged,
and the node at the on-path "a" is freshly allocated (address at least 5). -/
theorem put_structural_sharing_witness :
    (listPre ['b'] ['a'] = false
      ∧ ((((Trie.mk none).Put ['b'] ⟨0, 9⟩ 0).1.Put ['a'] ⟨0, 1⟩ 5).1.subtrie ['b']
          = (((Trie.mk none).Put ['b'] ⟨0, 9⟩ 0).1).subtrie ['b']))
      ∧ (listPre ['a'] ['a'] = true
        ∧ ∃ m,
            (((Trie.mk none).Put ['b'] ⟨0, 9⟩ 0).1.Put ['a'] ⟨0, 1⟩ 5).1.subtrie ['a'] = some m
              ∧ 5 ≤ m.addr) := by
  constructor
  · exact ⟨by decide,
      (put_structural_sharing (((Trie.mk none).Put ['b'] ⟨0, 9⟩ 0).1) ['a'] ⟨0, 1⟩ 5).1
        ['b'] (by decide)⟩
  · exact ⟨by decide,
      (put_structural_sharing (((Trie.mk none).Put ['b'] ⟨0, 9⟩ 0).1) ['a'] ⟨0, 1⟩ 5).2
        ['a'] (by decide)⟩

/-- C8: pruning.  After inserting key "ab" into any trie (whose root child
list satisfies the `std::map` sortedness invariant, as every trie built by
the program does) and then removing "ab", the resulting trie has no
reachable dead node at path "a": either no node is reachable there at all,
or the node reachable there still holds a value or still has children —
`Remove` prunes every now-empty, value-free, non-root node along the
removed key's path, not only the leaf. -/
theorem put_remove_prunes_path (t : Trie) (v : Val) (ctr : Nat)
    (h : rootSorted t = true) :
    deadAt (((t.Put ['a', 'b'] v ctr).1.Remove ['a', 'b']
        (t.Put ['a', 'b'] v ctr).2).1.subtrie ['a']) = false := by
  obtain ⟨root?⟩ := t
  cases root? with
  | none => rfl
  | some r =>
    obtain ⟨ra, rch, rv⟩ := r
    have hs : keysSorted rch = true := by simpa [rootSorted, TrieNode.children_] using h
    cases hfc : findChild rch 'a' with
    | none =>
      simp only [Trie.Put, Trie.Remove, Trie.subtrie, putLoop, removeRec, clone,
        TrieNode.children_, TrieNode.value_, TrieNode.addr, hfc,
        findChild_setChild_self, findChild, lookupPath, deadAt, eraseChild,
        List.isEmpty_nil, List.isEmpty_cons, Bool.not_false, Bool.not_true,
        Bool.true_and, Bool.false_and, Bool.and_true, Bool.and_false,
        Option.isNone_some, Option.isNone_none, eq_self_iff_true, if_true, if_false]
      simp
      rw [findChild_eraseChild_setChild_sorted _ _ _ hs]
    | some o =>
      obtain ⟨oa, och, ov⟩ := o
      cases hfb : findChild och 'b' with
      | none =>
        simp only [Trie.Put, Trie.Remove, Trie.subtrie, putLoop, removeRec, clone,
          TrieNode.children_, TrieNode.value_, TrieNode.addr, hfc, hfb,
          findChild_setChild_self, findChild, lookupPath, deadAt, eraseChild,
          List.isEmpty_nil, List.isEmpty_cons, Bool.not_false, Bool.not_true,
          Bool.true_and, Bool.false_and, Bool.and_true, Bool.and_false,
          Option.isNone_some, Option.isNone_none, eq_self_iff_true, if_true, if_false]
        cases hc : (eraseChild (setChild och 'b'
            (TrieNode.node (ctr + 1 + 1) [] (some v))) 'b').isEmpty && ov.isNone with
        | true =>
          simp
          rw [findChild_eraseChild_setChild_sorted _ _ _ hs]
        | false =>
          simp [findChild_setChild_self, deadAt, TrieNode.children_, TrieNode.value_, hc]
      | some ob =>
        obtain ⟨ba, bch, bv⟩ := ob
        cases bch with
        | nil =>
          simp only [Trie.Put, Trie.Remove, Trie.subtrie, putLoop, removeRec, clone,
            TrieNode.children_, TrieNode.value_, TrieNode.addr, hfc, hfb,
            findChild_setChild_self, findChild, lookupPath, deadAt, eraseChild,
            List.isEmpty_nil, List.isEmpty_cons, Bool.not_false, Bool.not_true,
            Bool.true_and, Bool.false_and, Bool.and_true, Bool.and_false,
            Option.isNone_some, Option.isNone_none, eq_self_iff_true, if_true, if_false]
          cases hc : (eraseChild (setChild och 'b'
              (TrieNode.node (ctr + 1 + 1) [] (some v))) 'b').isEmpty && ov.isNone with
          | true =>
            simp
            rw [findChild_eraseChild_setChild_sorted _ _ _ hs]
          | false =>
            simp [findChild_setChild_self, deadAt, TrieNode.children_, TrieNode.value_, hc]
        | cons b1 b2 =>
          simp only [Trie.Put, Trie.Remove, Trie.subtrie, putLoop, removeRec, clone,
            TrieNode.children_, TrieNode.value_, TrieNode.addr, hfc, hfb,
            findChild_setChild_self, findChild, lookupPath, deadAt, eraseChild,
            setChild_isEmpty,
            List.isEmpty_nil, List.isEmpty_cons, Bool.not_false, Bool.not_true,
            Bool.true_and, Bool.false_and, Bool.and_true, Bool.and_false,
            Option.isNone_some, Option.isNone_none, eq_self_iff_true, if_true, if_false]
          simp [findChild_setChild_self, setChild_isEmpty, deadAt,
            TrieNode.children_, TrieNode.value_]

/-- Witness for C8 at the empty trie (whose root trivially satisfies the
sortedness invariant): inserting "ab" and removing it again leaves no dead
node at path "a". -/
theorem put_remove_prunes_path_witness :
    rootSorted (Trie.mk none) = true
      ∧ deadAt ((((Trie.mk none).Put ['a', 'b'] ⟨0, 1⟩ 0).1.Remove ['a', 'b']
          ((Trie.mk none).Put ['a', 'b'] ⟨0, 1⟩ 0).2).1.subtrie ['a']) = false :=
  ⟨by decide, put_remove_prunes_path (Trie.mk none) ⟨0, 1⟩ 0 (by decide)⟩
